import Mathlib

/-!
Verification of the domo backend's core components against their
natural-language specification.

The first half embeds `app/utils/connection_manager.py`
(`ConnectionManager.connect` / `disconnect` / `broadcast`); the second half
embeds the file-version lifecycle in `app/routers/file.py`
(`upload_file`, `upload_files_batch`, `get_file_history`, `delete_file`)
over the tables declared in `app/models/file.py` and
`app/models/board.py`.

Identifiers (sockets, rooms, messages, physical paths, row ids) are
abstracted to natural numbers; logical filenames stay strings.  The
Python dict `active_connections : Dict[int, List[WebSocket]]` becomes an
association list with dict semantics (first matching key wins; the
operations never duplicate keys), and each Python list keeps its order.
-/

namespace Domo

abbrev Conn := Nat
abbrev Msg := Nat

/-- The registry state: `{ project_id: [socket1, socket2] }` from
`ConnectionManager.__init__`. -/
abbrev Registry := List (Nat × List Conn)

def emptyReg : Registry := []

/-- Dict lookup `active_connections[project_id]` (with the
`project_id in active_connections` test captured by `Option`). -/
def getRoom (pid : Nat) : Registry → Option (List Conn)
  | [] => none
  | (k, l) :: rest => if k = pid then some l else getRoom pid rest

/-- Dict assignment `active_connections[project_id] = l`. -/
def setRoom (pid : Nat) (l : List Conn) : Registry → Registry
  | [] => [(pid, l)]
  | (k, m) :: rest => if k = pid then (k, l) :: rest else (k, m) :: setRoom pid l rest

/-- Dict deletion `del active_connections[project_id]`. -/
def delRoom (pid : Nat) : Registry → Registry
  | [] => []
  | (k, m) :: rest => if k = pid then delRoom pid rest else (k, m) :: delRoom pid rest

/-- The member list of a room; `[]` when the room has no entry. -/
def membersOf (pid : Nat) (r : Registry) : List Conn := (getRoom pid r).getD []

/-- `ConnectionManager.connect`: create the entry if absent, then
`append` the websocket. -/
def connect (ws : Conn) (pid : Nat) (r : Registry) : Registry :=
  setRoom pid (membersOf pid r ++ [ws]) r

/-- `ConnectionManager.disconnect`: if the room exists and holds the
websocket, `remove` its first occurrence; delete the room entry when the
list becomes empty. -/
def disconnect (ws : Conn) (pid : Nat) (r : Registry) : Registry :=
  match getRoom pid r with
  | none => r
  | some l =>
    if ws ∈ l then
      let l' := l.erase ws
      if l' = [] then delRoom pid r else setRoom pid l' r
    else r

/-- `ConnectionManager.broadcast`: send `message` to every connection of
the room other than `sender_socket`, in list order.  The result is the
delivery log: one `(recipient, message)` pair per executed `send_json`. -/
def broadcast (m : Msg) (pid : Nat) (s : Conn) (r : Registry) : List (Conn × Msg) :=
  ((membersOf pid r).filter (fun c => c ≠ s)).map (fun c => (c, m))

/-- `ConnectionManager.broadcast` when a `send_json` may raise: `f c =
true` means sending to `c` fails.  The loop body has no `try`/`except`,
so the first failing send aborts the loop and the exception propagates
(`true` in the second component). -/
def sendLoop (f : Conn → Bool) (m : Msg) (s : Conn) : List Conn → List (Conn × Msg) × Bool
  | [] => ([], false)
  | c :: cs =>
    if c = s then sendLoop f m s cs
    else if f c then ([], true)
    else ((c, m) :: (sendLoop f m s cs).1, (sendLoop f m s cs).2)

def broadcastTry (f : Conn → Bool) (m : Msg) (pid : Nat) (s : Conn) (r : Registry) :
    List (Conn × Msg) × Bool :=
  sendLoop f m s (membersOf pid r)

/-! ### Traces of join/leave events -/

inductive Event where
  | join (c : Conn) (room : Nat)
  | leave (c : Conn) (room : Nat)
deriving DecidableEq, Repr

def stepReg (r : Registry) : Event → Registry
  | .join c room => connect c room r
  | .leave c room => disconnect c room r

def runReg (r : Registry) : List Event → Registry
  | [] => r
  | e :: tr => runReg (stepReg r e) tr

/-- A trace is well-formed when no connection joins a room it is already
a member of (each open socket joins once and must leave before
rejoining). -/
def wfFrom (r : Registry) : List Event → Bool
  | [] => true
  | .join c room :: tr => decide (c ∉ membersOf room r) && wfFrom (stepReg r (.join c room)) tr
  | .leave c room :: tr => wfFrom (stepReg r (.leave c room)) tr

/-- Modelled from the spec: "the registry's reported membership for that
room equals the set of connections joined minus those left" — membership
as a set evolving event by event, joins inserting (if absent) and leaves
removing. -/
def specMembersFrom (s : List Conn) (pid : Nat) : List Event → List Conn
  | [] => s
  | .join c room :: tr =>
      specMembersFrom (if room = pid then (if c ∈ s then s else s ++ [c]) else s) pid tr
  | .leave c room :: tr =>
      specMembersFrom (if room = pid then s.erase c else s) pid tr

def specMembers (tr : List Event) (pid : Nat) : List Conn :=
  specMembersFrom [] pid tr

/-- No room entry maps to an empty member list (`disconnect` deletes the
entry when the last member leaves, and the spec demands no dangling
empty rooms). -/
def noEmptyRooms (r : Registry) : Prop :=
  ∀ pid l, getRoom pid r = some l → l ≠ []

/-- Connections 1, 2, 3 joined to room 42 (the spec's A, B, C scenario). -/
def regABC : Registry := connect 3 42 (connect 2 42 (connect 1 42 emptyReg))

/-- A trace joining connection 5 to room 1 twice, then leaving once. -/
def trDup : List Event := [.join 5 1, .join 5 1, .leave 5 1]

/-- A well-formed trace: 1 and 2 join room 42, then 1 leaves. -/
def trJoinLeave : List Event := [.join 1 42, .join 2 42, .leave 1 42]

/-! ### File version manager: data model (`app/models/file.py`, `app/models/board.py`) -/

/-- Table `files` from `app/models/file.py`. -/
structure FileMetadata where
  id : Nat
  project_id : Nat
  filename : String
  owner_id : Nat
  created_at : Nat
  updated_at : Nat
deriving DecidableEq, Repr

/-- Table `file_versions` from `app/models/file.py`.  The only declared
constraint is the primary key on `id`; no uniqueness constraint on
`(file_id, version)` is declared. -/
structure FileVersion where
  id : Nat
  file_id : Nat
  version : Nat
  saved_path : Nat
  file_size : Nat
  uploader_id : Nat
  created_at : Nat
deriving DecidableEq, Repr

/-- Table `card_files` from `app/models/board.py`. -/
structure CardFileLink where
  card_id : Nat
  file_id : Nat
deriving DecidableEq, Repr

/-- The database state touched by the file routes, with the id counters
of the autoincrement primary keys. -/
structure DB where
  files : List FileMetadata
  versions : List FileVersion
  links : List CardFileLink
  nextFileId : Nat
  nextVersionId : Nat
deriving DecidableEq, Repr

/-- The physical upload directory: the set of stored artifact paths. -/
structure Disk where
  paths : List Nat
deriving DecidableEq, Repr

def emptyDB : DB := ⟨[], [], [], 1, 1⟩

/-- Primary keys are fresh: every row id is below its table's counter
(what a relational store's autoincrement guarantees). -/
def dbInv (db : DB) : Bool :=
  db.files.all (fun f => decide (f.id < db.nextFileId)) &&
  db.versions.all (fun v => decide (v.file_id < db.nextFileId) &&
    decide (v.id < db.nextVersionId))

/-- The `SELECT FileMetadata WHERE project_id = .. AND filename = ..`
lookup (`.first()`). -/
def findFile (pid : Nat) (fname : String) (db : DB) : Option FileMetadata :=
  db.files.find? (fun f => decide (f.project_id = pid) && decide (f.filename = fname))

/-- All version rows of one file identity
(`SELECT FileVersion WHERE file_id = ..`). -/
def versionsOf (fid : Nat) (db : DB) : List FileVersion :=
  db.versions.filter (fun v => decide (v.file_id = fid))

def versNums (fid : Nat) (db : DB) : List Nat :=
  (versionsOf fid db).map FileVersion.version

def maxNat (l : List Nat) : Nat := l.foldr max 0

/-- The version number of the `ORDER BY version DESC ... .first()` row,
and `0` when the file has no versions (so that `maxVersion + 1`
matches the code's `last_version.version + 1` / `1` branches). -/
def maxVersion (fid : Nat) (db : DB) : Nat := maxNat (versNums fid db)

/-- The file identity an upload of `(pid, fname)` resolves to: the
existing `FileMetadata.id`, or the id the freshly inserted row gets. -/
def targetOf (pid : Nat) (fname : String) (db : DB) : Nat :=
  match findFile pid fname db with
  | some f => f.id
  | none => db.nextFileId

/-- Steps 2–3 of `upload_file` (`app/routers/file.py`), after the
physical write: resolve or create the `FileMetadata` for
`(project_id, filename)`, compute the next version number
(`last_version.version + 1`, else `1`), and insert the `FileVersion`
row.  Returns the new state and the inserted row. -/
def uploadCore (pid : Nat) (fname : String) (size path uid time : Nat) (db : DB) :
    DB × FileVersion :=
  match findFile pid fname db with
  | some f =>
    let ver : FileVersion :=
      ⟨db.nextVersionId, f.id, maxVersion f.id db + 1, path, size, uid, time⟩
    ({ db with
        files := db.files.map (fun g => if g.id = f.id then { g with updated_at := time } else g),
        versions := db.versions ++ [ver],
        nextVersionId := db.nextVersionId + 1 }, ver)
  | none =>
    let meta : FileMetadata := ⟨db.nextFileId, pid, fname, uid, time, time⟩
    let ver : FileVersion := ⟨db.nextVersionId, meta.id, 1, path, size, uid, time⟩
    ({ db with
        files := db.files ++ [meta],
        versions := db.versions ++ [ver],
        nextFileId := db.nextFileId + 1,
        nextVersionId := db.nextVersionId + 1 }, ver)

/-- Outcome of the physical write (`open` + `copyfileobj`): the write
either completes with a byte count taken from the written artifact, or
raises midway. -/
inductive WriteResult where
  | ok (size : Nat)
  | err
deriving DecidableEq, Repr

/-- `upload_file`: `open(saved_path, "wb")` creates the artifact first;
if `copyfileobj` raises, the exception propagates before any database
access and the partially written artifact stays on disk (the `with`
block closes but does not unlink it); otherwise the database steps
follow. -/
def upload_file (pid : Nat) (fname : String) (wr : WriteResult) (path uid time : Nat)
    (db : DB) (disk : Disk) : Except (DB × Disk) (DB × Disk × FileVersion) :=
  let disk' : Disk := ⟨disk.paths ++ [path]⟩
  match wr with
  | .err => .error (db, disk')
  | .ok size =>
    let (db', ver) := uploadCore pid fname size path uid time db
    .ok (db', disk', ver)

/-- One successful upload request (the parameters of a `store` call). -/
structure UpItem where
  pid : Nat
  fname : String
  size : Nat
  path : Nat
  uid : Nat
  time : Nat
deriving DecidableEq, Repr

/-- A sequence of successful uploads applied to the database. -/
def runUploads (db : DB) : List UpItem → DB
  | [] => db
  | it :: tr => runUploads (uploadCore it.pid it.fname it.size it.path it.uid it.time db).1 tr

/-- How many of the uploads in the trace stored a version for file
identity `fid` (the number of successful `store()` calls ever made for
that identity). -/
def storeCountFrom (db : DB) (fid : Nat) : List UpItem → Nat
  | [] => 0
  | it :: tr =>
    (if targetOf it.pid it.fname db = fid then 1 else 0) +
      storeCountFrom (uploadCore it.pid it.fname it.size it.path it.uid it.time db).1 fid tr

/-- Insertion step of sorting by version, descending (`ORDER BY
version DESC`). -/
def insertDesc (v : FileVersion) : List FileVersion → List FileVersion
  | [] => [v]
  | w :: ws => if w.version ≤ v.version then v :: w :: ws else w :: insertDesc v ws

def sortDesc (l : List FileVersion) : List FileVersion := l.foldr insertDesc []

/-- `get_file_history`: 404 (`none`) unless the `FileMetadata` row
exists, else all versions of the file ordered by version descending. -/
def get_file_history (fid : Nat) (db : DB) : Option (List FileVersion) :=
  match db.files.find? (fun f => decide (f.id = fid)) with
  | none => none
  | some _ => some (sortDesc (versionsOf fid db))

/-- `[n, n-1, ..., 1]`: the version column of a gapless-from-1 history
read newest first. -/
def descRange : Nat → List Nat
  | 0 => []
  | n + 1 => (n + 1) :: descRange n

/-- Every file identity's version numbers are exactly `1..n` (as a
multiset): the shape upload-only histories have. -/
def goodVers (db : DB) : Prop :=
  ∀ fid, List.Perm (versNums fid db) (descRange (versNums fid db).length)

/-- The individual deletions `delete_file` performs, in program order. -/
inductive DelOp where
  | rmPath (p : Nat)
  | delVersion (id : Nat)
  | delLink (card : Nat) (fid : Nat)
  | delMeta (fid : Nat)
deriving DecidableEq, Repr

def isChildOp : DelOp → Bool
  | .delMeta _ => false
  | _ => true

/-- The deletions `delete_file` performs before the `FileMetadata` row:
per version, the physical removal when the artifact exists (an absent
artifact is only logged) then the row deletion; then every
`CardFileLink` row referencing the file. -/
def childDeleteOps (fid : Nat) (db : DB) (disk : Disk) : List DelOp :=
  ((versionsOf fid db).map (fun v =>
      (if v.saved_path ∈ disk.paths then [DelOp.rmPath v.saved_path] else []) ++
        [DelOp.delVersion v.id])).flatten ++
    ((db.links.filter (fun l => decide (l.file_id = fid))).map
      (fun l => DelOp.delLink l.card_id l.file_id))

def deletedDB (fid : Nat) (db : DB) : DB :=
  { db with
      files := db.files.filter (fun f => !decide (f.id = fid)),
      versions := db.versions.filter (fun v => !decide (v.file_id = fid)),
      links := db.links.filter (fun l => !decide (l.file_id = fid)) }

def deletedDisk (fid : Nat) (db : DB) (disk : Disk) : Disk :=
  ⟨disk.paths.filter (fun p => !decide (p ∈ (versionsOf fid db).map FileVersion.saved_path))⟩

/-- `delete_file`: 404 (`none`) unless the `FileMetadata` row exists;
otherwise remove each version's artifact (tolerating an absent one) and
row, then the card links, then the metadata row. -/
def delete_file (fid : Nat) (db : DB) (disk : Disk) :
    Option (DB × Disk × List DelOp) :=
  match db.files.find? (fun f => decide (f.id = fid)) with
  | none => none
  | some _ =>
    some (deletedDB fid db, deletedDisk fid db disk,
      childDeleteOps fid db disk ++ [DelOp.delMeta fid])

/-- One entry of the `files` list of `upload_files_batch`, with the
outcome of its physical write. -/
structure BatchItem where
  pid : Nat
  fname : String
  wr : WriteResult
  path : Nat
  uid : Nat
  time : Nat
deriving DecidableEq, Repr

/-- `upload_files_batch`: the single-upload logic applied per file, each
file committed individually; the loop has no `try`/`except` around the
write, so a write failure propagates and aborts the remaining files
while the already committed state stays. -/
def upload_files_batch : List BatchItem → DB → Disk →
    Except (DB × Disk) (DB × Disk × List FileVersion)
  | [], db, disk => .ok (db, disk, [])
  | it :: rest, db, disk =>
    match upload_file it.pid it.fname it.wr it.path it.uid it.time db disk with
    | .error e => .error e
    | .ok (db', disk', ver) =>
      match upload_files_batch rest db' disk' with
      | .error e => .error e
      | .ok (db2, disk2, vers) => .ok (db2, disk2, ver :: vers)

/-- An `INSERT` into `file_versions` checked against the constraints the
schema declares (`app/models/file.py`): only the primary key on `id` —
there is no uniqueness constraint on `(file_id, version)`. -/
def insertVersionChecked (db : DB) (v : FileVersion) : Option DB :=
  if db.versions.all (fun w => !decide (w.id = v.id)) then
    some { db with versions := db.versions ++ [v] }
  else none

/-- Two uploads racing on the same file identity, interleaved at the
database level: both read the maximum version from the same snapshot,
then both insert. -/
def raceVersions (fid id1 id2 p1 p2 s1 s2 u1 u2 t1 t2 : Nat) (db : DB) : Option DB :=
  let n := maxVersion fid db
  match insertVersionChecked db ⟨id1, fid, n + 1, p1, s1, u1, t1⟩ with
  | none => none
  | some db1 => insertVersionChecked db1 ⟨id2, fid, n + 1, p2, s2, u2, t2⟩

/-- A database holding project 7's file "spec.pdf" with one version. -/
def dbOne : DB :=
  ⟨[⟨1, 7, "spec.pdf", 1, 0, 0⟩], [⟨1, 1, 1, 10, 5000, 1, 0⟩], [], 2, 2⟩

/-- The spec's scenario trace: "spec.pdf" uploaded twice to project 7. -/
def trTwoUploads : List UpItem :=
  [⟨7, "spec.pdf", 5000, 10, 1, 0⟩, ⟨7, "spec.pdf", 6200, 11, 1, 1⟩]

/-- A database with one file in two versions and one card link. -/
def dbTwo : DB :=
  ⟨[⟨1, 7, "spec.pdf", 1, 0, 0⟩],
   [⟨1, 1, 1, 10, 5000, 1, 0⟩, ⟨2, 1, 2, 11, 6200, 1, 1⟩],
   [⟨4, 1⟩], 2, 3⟩

/-- A disk holding only version 1's artifact (version 2's is absent). -/
def diskOne : Disk := ⟨[10]⟩

/-- The history `trTwoUploads` produces for file 1, newest first. -/
def verListTwo : List FileVersion :=
  [⟨2, 1, 2, 11, 6200, 1, 1⟩, ⟨1, 1, 1, 10, 5000, 1, 0⟩]

/-! ### Basic registry lemmas -/

theorem getRoom_setRoom_self (pid : Nat) (l : List Conn) (r : Registry) :
    getRoom pid (setRoom pid l r) = some l := by
  induction r with
  | nil => simp [getRoom, setRoom]
  | cons kv rest ih =>
    obtain ⟨k, m⟩ := kv
    by_cases hk : k = pid <;> simp [getRoom, setRoom, hk, ih]

theorem getRoom_setRoom_ne {p q : Nat} (h : p ≠ q) (l : List Conn) (r : Registry) :
    getRoom p (setRoom q l r) = getRoom p r := by
  have hqp : q ≠ p := Ne.symm h
  induction r with
  | nil => simp [getRoom, setRoom, hqp]
  | cons kv rest ih =>
    obtain ⟨k, m⟩ := kv
    by_cases hk : k = q
    · subst hk
      simp [getRoom, setRoom, hqp]
    · by_cases hp : k = p <;> simp [getRoom, setRoom, hk, hp, ih, h]

theorem getRoom_delRoom_self (pid : Nat) (r : Registry) :
    getRoom pid (delRoom pid r) = none := by
  induction r with
  | nil => simp [getRoom, delRoom]
  | cons kv rest ih =>
    obtain ⟨k, m⟩ := kv
    by_cases hk : k = pid <;> simp [getRoom, delRoom, hk, ih]

theorem getRoom_delRoom_ne {p q : Nat} (h : p ≠ q) (r : Registry) :
    getRoom p (delRoom q r) = getRoom p r := by
  have hqp : q ≠ p := Ne.symm h
  induction r with
  | nil => simp [delRoom]
  | cons kv rest ih =>
    obtain ⟨k, m⟩ := kv
    by_cases hk : k = q
    · subst hk
      simp [getRoom, delRoom, hqp, ih]
    · by_cases hp : k = p <;> simp [getRoom, delRoom, hk, hp, ih, h]

theorem membersOf_connect_self (c : Conn) (pid : Nat) (r : Registry) :
    membersOf pid (connect c pid r) = membersOf pid r ++ [c] := by
  simp [connect, membersOf, getRoom_setRoom_self]

theorem membersOf_connect_ne {p q : Nat} (h : p ≠ q) (c : Conn) (r : Registry) :
    membersOf p (connect c q r) = membersOf p r := by
  simp [connect, membersOf, getRoom_setRoom_ne h]

theorem membersOf_disconnect_self (c : Conn) (pid : Nat) (r : Registry) :
    membersOf pid (disconnect c pid r) = (membersOf pid r).erase c := by
  unfold disconnect
  cases hg : getRoom pid r with
  | none => simp [membersOf, hg]
  | some l =>
    by_cases hc : c ∈ l
    · by_cases he : l.erase c = []
      · simp [membersOf, hg, hc, he, getRoom_delRoom_self]
      · simp [membersOf, hg, hc, he, getRoom_setRoom_self]
    · simp [membersOf, hg, hc, List.erase_of_not_mem hc]

theorem membersOf_disconnect_ne {p q : Nat} (h : p ≠ q) (c : Conn) (r : Registry) :
    membersOf p (disconnect c q r) = membersOf p r := by
  unfold disconnect
  cases hg : getRoom q r with
  | none => rfl
  | some l =>
    by_cases hc : c ∈ l
    · by_cases he : l.erase c = []
      · simp [membersOf, hc, he, getRoom_delRoom_ne h]
      · simp [membersOf, hc, he, getRoom_setRoom_ne h]
    · simp [hc]

theorem disconnect_not_mem {c : Conn} {pid : Nat} {r : Registry}
    (h : c ∉ membersOf pid r) : disconnect c pid r = r := by
  unfold disconnect
  cases hg : getRoom pid r with
  | none => rfl
  | some l =>
    have hc : c ∉ l := by simpa [membersOf, hg] using h
    simp [hc]

/-! ### Simulation between the registry and the spec's set semantics -/

theorem specMembersFrom_nodup (pid : Nat) :
    ∀ (tr : List Event) (s : List Conn), s.Nodup → (specMembersFrom s pid tr).Nodup := by
  intro tr
  induction tr with
  | nil => intro s hs; simpa [specMembersFrom] using hs
  | cons e tr ih =>
    intro s hs
    cases e with
    | join c room =>
      simp only [specMembersFrom]
      apply ih
      by_cases hr : room = pid
      · by_cases hc : c ∈ s
        · simpa [hr, hc] using hs
        · have hcons : (s ++ [c]).Nodup :=
            (List.perm_append_singleton c s).nodup_iff.mpr (List.nodup_cons.mpr ⟨hc, hs⟩)
          simpa [hr, hc] using hcons
      · simpa [hr] using hs
    | leave c room =>
      simp only [specMembersFrom]
      apply ih
      by_cases hr : room = pid
      · simpa [hr] using hs.erase c
      · simpa [hr] using hs

theorem runReg_eq_spec (pid : Nat) :
    ∀ (tr : List Event) (r : Registry), wfFrom r tr = true →
      membersOf pid (runReg r tr) = specMembersFrom (membersOf pid r) pid tr := by
  intro tr
  induction tr with
  | nil => intro r _; rfl
  | cons e tr ih =>
    intro r hwf
    cases e with
    | join c room =>
      have h1 : c ∉ membersOf room r := by
        have := hwf
        simp [wfFrom, Bool.and_eq_true] at this
        exact this.1
      have h2 : wfFrom (stepReg r (.join c room)) tr = true := by
        have := hwf
        simp [wfFrom, Bool.and_eq_true] at this
        exact this.2
      have hstep : membersOf pid (connect c room r) =
          (if room = pid then
            (if c ∈ membersOf pid r then membersOf pid r else membersOf pid r ++ [c])
          else membersOf pid r) := by
        by_cases hr : room = pid
        · subst hr
          simp [membersOf_connect_self, h1]
        · simp [membersOf_connect_ne (fun hq => hr hq.symm), hr]
      calc membersOf pid (runReg r (.join c room :: tr))
          = membersOf pid (runReg (connect c room r) tr) := rfl
        _ = specMembersFrom (membersOf pid (connect c room r)) pid tr := ih _ h2
        _ = specMembersFrom (membersOf pid r) pid (.join c room :: tr) := by
            rw [hstep]; rfl
    | leave c room =>
      have h2 : wfFrom (stepReg r (.leave c room)) tr = true := hwf
      have hstep : membersOf pid (disconnect c room r) =
          (if room = pid then (membersOf pid r).erase c else membersOf pid r) := by
        by_cases hr : room = pid
        · subst hr
          simp [membersOf_disconnect_self]
        · simp [membersOf_disconnect_ne (fun hq => hr hq.symm), hr]
      calc membersOf pid (runReg r (.leave c room :: tr))
          = membersOf pid (runReg (disconnect c room r) tr) := rfl
        _ = specMembersFrom (membersOf pid (disconnect c room r)) pid tr := ih _ h2
        _ = specMembersFrom (membersOf pid r) pid (.leave c room :: tr) := by
            rw [hstep]; rfl

theorem noEmptyRooms_connect {r : Registry} (h : noEmptyRooms r) (c : Conn) (pid : Nat) :
    noEmptyRooms (connect c pid r) := by
  intro p l hget
  by_cases hp : p = pid
  · subst hp
    rw [connect, getRoom_setRoom_self] at hget
    cases hget
    simp
  · rw [connect, getRoom_setRoom_ne hp] at hget
    exact h p l hget

theorem noEmptyRooms_disconnect {r : Registry} (h : noEmptyRooms r) (c : Conn) (pid : Nat) :
    noEmptyRooms (disconnect c pid r) := by
  intro p l hget
  unfold disconnect at hget
  cases hg : getRoom pid r with
  | none => rw [hg] at hget; exact h p l hget
  | some old =>
    rw [hg] at hget
    by_cases hc : c ∈ old
    · by_cases he : old.erase c = []
      · simp only [hc, if_pos, he, if_true] at hget
        by_cases hp : p = pid
        · subst hp; rw [getRoom_delRoom_self] at hget; cases hget
        · rw [getRoom_delRoom_ne hp] at hget; exact h p l hget
      · simp only [hc, if_pos, he, if_false] at hget
        by_cases hp : p = pid
        · subst hp
          rw [getRoom_setRoom_self] at hget
          cases hget
          exact he
        · rw [getRoom_setRoom_ne hp] at hget
          exact h p l hget
    · simp only [hc, if_false] at hget
      exact h p l hget

theorem noEmptyRooms_runReg :
    ∀ (tr : List Event) (r : Registry), noEmptyRooms r → noEmptyRooms (runReg r tr) := by
  intro tr
  induction tr with
  | nil => intro r h; exact h
  | cons e tr ih =>
    intro r h
    cases e with
    | join c room => exact ih _ (noEmptyRooms_connect h c room)
    | leave c room => exact ih _ (noEmptyRooms_disconnect h c room)

theorem noEmptyRooms_empty : noEmptyRooms emptyReg := by
  intro p l hget
  cases hget

theorem broadcast_recipients (m : Msg) (pid : Nat) (s : Conn) (r : Registry) :
    (broadcast m pid s r).map Prod.fst = (membersOf pid r).filter (fun c => c ≠ s) := by
  simp only [broadcast, List.map_map]
  exact List.map_id _

theorem sendLoop_eq (f : Conn → Bool) (m : Msg) (s : Conn) :
    ∀ l : List Conn,
      sendLoop f m s l =
        (((l.filter (fun c => c ≠ s)).takeWhile (fun c => !f c)).map (fun c => (c, m)),
         (l.filter (fun c => c ≠ s)).any f) := by
  intro l
  induction l with
  | nil => rfl
  | cons c cs ih =>
    by_cases hcs : c = s
    · simp [sendLoop, hcs, ih]
    · by_cases hf : f c
      · simp [sendLoop, hcs, hf]
      · simp [sendLoop, hcs, hf, ih]

/-! ### Claim theorems for the connection registry -/

/-- C1: `broadcast(room, msg, exclude=sender)` delivers `msg` to every
connection currently registered in the room except the sender, exactly
once each, and delivers nothing to the sender.  Stated for any registry
state whose room member list holds each connection once (i.e. no
connection joined the room twice without leaving — the set semantics the
spec's data model assigns to rooms; double registration is covered by
C10): the delivery log has exactly one entry for each member `c ≠ s`,
no entry for the sender, and every entry carries `m`. -/
theorem broadcast_delivers_exactly_once (r : Registry) (pid : Nat) (s c : Conn) (m : Msg)
    (hnd : (membersOf pid r).Nodup) (hc : c ∈ membersOf pid r) (hcs : c ≠ s) :
    ((broadcast m pid s r).map Prod.fst).count c = 1 ∧
    ((broadcast m pid s r).map Prod.fst).count s = 0 ∧
    (broadcast m pid s r).all (fun cm => cm.2 = m) = true := by
  refine ⟨?_, ?_, ?_⟩
  · rw [broadcast_recipients]
    rw [List.count_filter (by simp [hcs])]
    exact List.count_eq_one_of_mem hnd hc
  · rw [broadcast_recipients]
    rw [List.count_eq_zero]
    intro hmem
    have := (List.mem_filter.mp hmem).2
    simp at this
  · simp only [broadcast, List.all_eq_true]
    intro cm hmem
    obtain ⟨x, _, rfl⟩ := List.mem_map.mp hmem
    simp

/-- C1 witness: connections 1, 2, 3 are joined to room 42 and 1 sends
message 9: member 2 receives it exactly once, the sender receives
nothing, and every delivery carries message 9. -/
theorem broadcast_delivers_exactly_once_witness :
    ((membersOf 42 regABC).Nodup ∧ 2 ∈ membersOf 42 regABC ∧ (2 : Nat) ≠ 1) ∧
    (((broadcast 9 42 1 regABC).map Prod.fst).count 2 = 1 ∧
     ((broadcast 9 42 1 regABC).map Prod.fst).count 1 = 0 ∧
     (broadcast 9 42 1 regABC).all (fun cm => cm.2 = 9) = true) :=
  ⟨⟨by decide, by decide, by decide⟩,
    broadcast_delivers_exactly_once regABC 42 1 2 9 (by decide) (by decide) (by decide)⟩

/-- C4 counterexample: connections 1, 2, 3 are in room 42, 1 broadcasts
message 9 and the send to 2 fails.  The claim says connection 3 would
still receive the message and nothing would be raised past the
broadcast; in the code the loop body has no `try`/`except`, so the
exception propagates (`.2 = true`) and 3 receives nothing. -/
theorem broadcast_failure_counterexample :
    (broadcastTry (fun c => decide (c = 2)) 9 42 1 regABC).2 = true ∧
    (3, 9) ∉ (broadcastTry (fun c => decide (c = 2)) 9 42 1 regABC).1 := by
  decide

/-- C4 amended: a delivery failure during `broadcast` raises past the
broadcast call and stops delivery: the recipients that precede the first
failing recipient in iteration order receive the message, the remaining
ones do not.  Formally the loop delivers to the longest failure-free
prefix of the non-sender members and reports an exception iff some
non-sender member fails. -/
theorem broadcast_failure_stops_delivery (f : Conn → Bool) (m : Msg) (pid : Nat)
    (s : Conn) (r : Registry) :
    broadcastTry f m pid s r =
      ((((membersOf pid r).filter (fun c => c ≠ s)).takeWhile (fun c => !f c)).map
          (fun c => (c, m)),
       ((membersOf pid r).filter (fun c => c ≠ s)).any f) :=
  sendLoop_eq f m s (membersOf pid r)

/-- C7 counterexample: after `[join 5 1, join 5 1, leave 5 1]` the
registry still reports 5 as a member of room 1 (the list held two
registrations and `leave` removed one), while "the set of connections
joined minus those left" is empty. -/
theorem membership_set_semantics_counterexample :
    5 ∈ membersOf 1 (runReg emptyReg trDup) ∧ 5 ∉ specMembers trDup 1 := by
  decide

/-- C7 amended: for every sequence of join/leave calls in which no
connection joins a room it is already in, the registry's membership for
every room equals (same elements, no duplicates) the set of connections
joined minus those left; a room is absent from the registry exactly when
its membership is empty; and removing an absent connection is a no-op on
the whole registry state. -/
theorem registry_membership_tracks_joins (tr : List Event) (pid : Nat) (c : Conn)
    (r : Registry) (c' : Conn) (pid' : Nat)
    (hwf : wfFrom emptyReg tr = true) (hnm : c' ∉ membersOf pid' r) :
    (membersOf pid (runReg emptyReg tr)).Nodup ∧
    (c ∈ membersOf pid (runReg emptyReg tr) ↔ c ∈ specMembers tr pid) ∧
    (getRoom pid (runReg emptyReg tr) = none ↔ membersOf pid (runReg emptyReg tr) = []) ∧
    disconnect c' pid' r = r := by
  have hrun : membersOf pid (runReg emptyReg tr) = specMembers tr pid := by
    have := runReg_eq_spec pid tr emptyReg hwf
    simpa [specMembers, membersOf, emptyReg, getRoom] using this
  have hne : noEmptyRooms (runReg emptyReg tr) :=
    noEmptyRooms_runReg tr emptyReg noEmptyRooms_empty
  refine ⟨?_, ?_, ?_, disconnect_not_mem hnm⟩
  · rw [hrun]
    exact specMembersFrom_nodup pid tr [] List.nodup_nil
  · rw [hrun]
  · constructor
    · intro hnone
      simp [membersOf, hnone]
    · intro hemp
      cases hg : getRoom pid (runReg emptyReg tr) with
      | none => rfl
      | some l =>
        exfalso
        apply hne pid l hg
        simpa [membersOf, hg] using hemp

/-- C7 witness: the trace `[join 1 42, join 2 42, leave 1 42]` is
well-formed, and the registry after it satisfies the amended claim at
room 42 and connection 2; idempotence is witnessed on the registry
`[(7, [9])]` and the absent connection 3. -/
theorem registry_membership_tracks_joins_witness :
    (wfFrom emptyReg trJoinLeave = true ∧ (3 : Conn) ∉ membersOf 7 [(7, [9])]) ∧
    ((membersOf 42 (runReg emptyReg trJoinLeave)).Nodup ∧
     (2 ∈ membersOf 42 (runReg emptyReg trJoinLeave) ↔ 2 ∈ specMembers trJoinLeave 42) ∧
     (getRoom 42 (runReg emptyReg trJoinLeave) = none ↔
       membersOf 42 (runReg emptyReg trJoinLeave) = []) ∧
     disconnect 3 7 [(7, [9])] = [(7, [9])]) :=
  ⟨⟨by decide, by decide⟩,
    registry_membership_tracks_joins trJoinLeave 42 2 [(7, [9])] 3 7 (by decide) (by decide)⟩

/-- C10: joining the same connection to the same room twice registers it
twice: a broadcast from another sender delivers the message to it twice,
and a single `disconnect` removes only one registration, leaving the
connection still a member (exactly once, starting from a state where it
was absent). -/
theorem double_join_registers_twice (r : Registry) (pid : Nat) (c s : Conn) (m : Msg)
    (h1 : c ∉ membersOf pid r) (h2 : c ≠ s) :
    ((broadcast m pid s (connect c pid (connect c pid r))).map Prod.fst).count c = 2 ∧
    c ∈ membersOf pid (disconnect c pid (connect c pid (connect c pid r))) ∧
    (membersOf pid (disconnect c pid (connect c pid (connect c pid r)))).count c = 1 := by
  have hm : membersOf pid (connect c pid (connect c pid r)) =
      membersOf pid r ++ ([c] ++ [c]) := by
    rw [membersOf_connect_self, membersOf_connect_self, List.append_assoc]
  have herase : membersOf pid (disconnect c pid (connect c pid (connect c pid r))) =
      membersOf pid r ++ [c] := by
    rw [membersOf_disconnect_self, hm, List.erase_append_right _ h1]
    simp
  refine ⟨?_, ?_, ?_⟩
  · rw [broadcast_recipients, List.count_filter (by simp [h2]), hm]
    simp [List.count_append, List.count_eq_zero.mpr h1]
  · rw [herase]
    simp
  · rw [herase]
    simp [List.count_append, List.count_eq_zero.mpr h1]

/-! ### File version manager lemmas -/

theorem uploadCore_file_id (pid : Nat) (fname : String) (size path uid time : Nat) (db : DB) :
    (uploadCore pid fname size path uid time db).2.file_id = targetOf pid fname db := by
  unfold uploadCore targetOf
  cases findFile pid fname db <;> rfl

theorem versionsOf_uploadCore (pid : Nat) (fname : String) (size path uid time fid : Nat)
    (db : DB) :
    versionsOf fid (uploadCore pid fname size path uid time db).1 =
      versionsOf fid db ++
        (if targetOf pid fname db = fid then [(uploadCore pid fname size path uid time db).2]
         else []) := by
  unfold uploadCore targetOf
  cases hf : findFile pid fname db with
  | some f =>
    by_cases hfid : f.id = fid <;> simp [versionsOf, List.filter_append, hfid]
  | none =>
    by_cases hfid : db.nextFileId = fid <;> simp [versionsOf, List.filter_append, hfid]

theorem versionsOf_fresh {db : DB} (h : dbInv db = true) :
    versionsOf db.nextFileId db = [] := by
  simp only [dbInv, Bool.and_eq_true, List.all_eq_true] at h
  rw [versionsOf, List.filter_eq_nil_iff]
  intro v hv
  have := h.2 v hv
  simp only [Bool.and_eq_true, decide_eq_true_eq] at this
  simp only [decide_eq_true_eq]
  omega

theorem uploadCore_version_value (pid : Nat) (fname : String) (size path uid time : Nat)
    {db : DB} (h : dbInv db = true) :
    (uploadCore pid fname size path uid time db).2.version =
      maxVersion (targetOf pid fname db) db + 1 := by
  unfold uploadCore targetOf
  cases hf : findFile pid fname db with
  | some f => rfl
  | none =>
    simp [maxVersion, versNums, versionsOf_fresh h, maxNat]

theorem dbInv_uploadCore (pid : Nat) (fname : String) (size path uid time : Nat)
    {db : DB} (h : dbInv db = true) :
    dbInv (uploadCore pid fname size path uid time db).1 = true := by
  simp only [dbInv, Bool.and_eq_true, List.all_eq_true] at h
  unfold uploadCore
  cases hf : findFile pid fname db with
  | some f =>
    have hfmem : f ∈ db.files := List.mem_of_find?_eq_some hf
    have hflt := h.1 f hfmem
    simp only [decide_eq_true_eq] at hflt
    simp only [dbInv, Bool.and_eq_true, List.all_eq_true]
    constructor
    · intro g hg
      obtain ⟨g0, hg0, rfl⟩ := List.mem_map.mp hg
      have := h.1 g0 hg0
      by_cases hid : g0.id = f.id <;> simpa [hid] using this
    · intro v hv
      rcases List.mem_append.mp hv with hv | hv
      · have := h.2 v hv
        simp only [Bool.and_eq_true, decide_eq_true_eq] at this
        simp only [Bool.and_eq_true, decide_eq_true_eq]
        omega
      · simp only [List.mem_singleton] at hv
        subst hv
        simp only [Bool.and_eq_true, decide_eq_true_eq]
        omega
  | none =>
    simp only [dbInv, Bool.and_eq_true, List.all_eq_true]
    constructor
    · intro g hg
      rcases List.mem_append.mp hg with hg | hg
      · have := h.1 g hg
        simp only [decide_eq_true_eq] at this
        simp only [decide_eq_true_eq]
        omega
      · simp only [List.mem_singleton] at hg
        subst hg
        simp
    · intro v hv
      rcases List.mem_append.mp hv with hv | hv
      · have := h.2 v hv
        simp only [Bool.and_eq_true, decide_eq_true_eq] at this
        simp only [Bool.and_eq_true, decide_eq_true_eq]
        omega
      · simp only [List.mem_singleton] at hv
        subst hv
        simp only [Bool.and_eq_true, decide_eq_true_eq]
        omega

theorem batch_append (l1 l2 : List BatchItem) (db : DB) (disk : Disk) :
    upload_files_batch (l1 ++ l2) db disk =
      (match upload_files_batch l1 db disk with
       | .error e => .error e
       | .ok (db', disk', vs) =>
         match upload_files_batch l2 db' disk' with
         | .error e => .error e
         | .ok (db2, disk2, vs2) => .ok (db2, disk2, vs ++ vs2)) := by
  induction l1 generalizing db disk with
  | nil =>
    simp only [List.nil_append, upload_files_batch]
    cases upload_files_batch l2 db disk with
    | error e => rfl
    | ok x => obtain ⟨db2, disk2, vs2⟩ := x; rfl
  | cons it rest ih =>
    simp only [List.cons_append, upload_files_batch]
    cases hu : upload_file it.pid it.fname it.wr it.path it.uid it.time db disk with
    | error e => rfl
    | ok x =>
      obtain ⟨db', disk', ver⟩ := x
      simp only [List.append_eq] at ih ⊢
      rw [ih db' disk']
      cases h1 : upload_files_batch rest db' disk' with
      | error e => rfl
      | ok y =>
        obtain ⟨dbp, diskp, vs⟩ := y
        cases h2 : upload_files_batch l2 dbp diskp with
        | error e => simp [h2]
        | ok z =>
          obtain ⟨db2, disk2, vs2⟩ := z
          simp [h2]

/-! ### Claim theorems for the file version manager -/

/-- C6 counterexample: the physical write of an upload to project 7
fails (`copyfileobj` raises).  No database mutation happened — but the
partially written artifact at path 99 is NOT cleaned up: it remains on
disk, contradicting the claim's cleanup clause. -/
theorem upload_cleanup_counterexample :
    upload_file 7 "spec.pdf" WriteResult.err 99 1 0 emptyDB ⟨[]⟩ =
      Except.error (emptyDB, ⟨[99]⟩) ∧
    99 ∈ (Disk.mk [99]).paths := by
  exact ⟨rfl, by decide⟩

/-- C6 amended: if the physical write fails during `store`, the
operation aborts before any database mutation (the database state is
returned unchanged), but the partially written physical file is NOT
cleaned up — it remains on disk at the generated path. -/
theorem upload_write_failure_aborts (pid : Nat) (fname : String) (path uid time : Nat)
    (db : DB) (disk : Disk) (db' : DB) (disk' : Disk)
    (h : upload_file pid fname WriteResult.err path uid time db disk =
      Except.error (db', disk')) :
    db' = db ∧ path ∈ disk'.paths := by
  simp only [upload_file, Except.error.injEq, Prod.mk.injEq] at h
  obtain ⟨h1, h2⟩ := h
  refine ⟨h1.symm, ?_⟩
  rw [← h2]
  simp

/-- C6 witness: the amended claim at a concrete failing upload. -/
theorem upload_write_failure_aborts_witness :
    (upload_file 7 "a.txt" WriteResult.err 5 1 0 emptyDB ⟨[]⟩ =
      Except.error (emptyDB, ⟨[5]⟩)) ∧
    (emptyDB = emptyDB ∧ 5 ∈ (Disk.mk [5]).paths) :=
  ⟨rfl, upload_write_failure_aborts 7 "a.txt" 5 1 0 emptyDB ⟨[]⟩ emptyDB ⟨[5]⟩ rfl⟩

/-- C8: in `upload_files_batch`, when the physical write of one file
fails, the whole request aborts with the exception, but the database and
disk state produced by the files already stored earlier in the same
batch is kept exactly — their `FileMetadata`/`FileVersion` rows persist,
nothing is rolled back (each file was committed as an independent unit
of work); only the failing file's partial artifact is added. -/
theorem batch_earlier_files_persist (pre : List BatchItem) (it : BatchItem)
    (post : List BatchItem) (db dbp : DB) (disk diskp : Disk) (vs : List FileVersion)
    (hpre : upload_files_batch pre db disk = .ok (dbp, diskp, vs))
    (hit : it.wr = WriteResult.err) :
    upload_files_batch (pre ++ it :: post) db disk =
      .error (dbp, ⟨diskp.paths ++ [it.path]⟩) := by
  rw [batch_append, hpre]
  obtain ⟨pid, fname, wr, path, uid, time⟩ := it
  cases hit
  rfl

/-- C8 witness: a batch of two files where the second write fails: the
batch aborts, and the error state is exactly the state committed for the
first file. -/
theorem batch_earlier_files_persist_witness :
    (upload_files_batch [⟨7, "a.txt", WriteResult.ok 3, 21, 1, 0⟩] emptyDB ⟨[]⟩ =
        .ok (⟨[⟨1, 7, "a.txt", 1, 0, 0⟩], [⟨1, 1, 1, 21, 3, 1, 0⟩], [], 2, 2⟩, ⟨[21]⟩,
          [⟨1, 1, 1, 21, 3, 1, 0⟩]) ∧
      (⟨7, "b.txt", WriteResult.err, 22, 1, 1⟩ : BatchItem).wr = WriteResult.err) ∧
    upload_files_batch
        ([⟨7, "a.txt", WriteResult.ok 3, 21, 1, 0⟩] ++
          (⟨7, "b.txt", WriteResult.err, 22, 1, 1⟩ : BatchItem) :: []) emptyDB ⟨[]⟩ =
      .error (⟨[⟨1, 7, "a.txt", 1, 0, 0⟩], [⟨1, 1, 1, 21, 3, 1, 0⟩], [], 2, 2⟩, ⟨[21, 22]⟩) :=
  ⟨⟨rfl, rfl⟩,
    batch_earlier_files_persist [⟨7, "a.txt", WriteResult.ok 3, 21, 1, 0⟩]
      ⟨7, "b.txt", WriteResult.err, 22, 1, 1⟩ [] emptyDB
      ⟨[⟨1, 7, "a.txt", 1, 0, 0⟩], [⟨1, 1, 1, 21, 3, 1, 0⟩], [], 2, 2⟩ ⟨[]⟩ ⟨[21]⟩
      [⟨1, 1, 1, 21, 3, 1, 0⟩] rfl rfl⟩

/-- C10 witness: starting from the empty registry, connection 2 joins
room 42 twice; a broadcast of message 9 from sender 1 reaches it twice,
and one `disconnect` leaves it registered exactly once. -/
theorem double_join_registers_twice_witness :
    ((2 : Conn) ∉ membersOf 42 emptyReg ∧ (2 : Nat) ≠ 1) ∧
    (((broadcast 9 42 1 (connect 2 42 (connect 2 42 emptyReg))).map Prod.fst).count 2 = 2 ∧
     2 ∈ membersOf 42 (disconnect 2 42 (connect 2 42 (connect 2 42 emptyReg))) ∧
     (membersOf 42 (disconnect 2 42 (connect 2 42 (connect 2 42 emptyReg)))).count 2 = 1) :=
  ⟨⟨by decide, by decide⟩,
    double_join_registers_twice emptyReg 42 2 1 9 (by decide) (by decide)⟩

/-- C3: whenever the `FileMetadata` row exists, `delete_file` succeeds
(in particular it tolerates versions whose physical artifact is already
absent from the disk — no hypothesis on `disk`), removes every
`FileVersion` row and every `CardFileLink` row for the file and every
version's physical artifact; every emitted deletion preceding the final
`FileMetadata` deletion is a child deletion (children before parent);
and `get_file_history` afterwards reports not-found. -/
theorem delete_removes_children_then_meta (fid : Nat) (db : DB) (disk : Disk)
    (m : FileMetadata) (hm : db.files.find? (fun f => decide (f.id = fid)) = some m) :
    delete_file fid db disk =
      some (deletedDB fid db, deletedDisk fid db disk,
        childDeleteOps fid db disk ++ [DelOp.delMeta fid]) ∧
    versionsOf fid (deletedDB fid db) = [] ∧
    (deletedDB fid db).links.filter (fun l => decide (l.file_id = fid)) = [] ∧
    ((versionsOf fid db).map FileVersion.saved_path).all
      (fun p => !decide (p ∈ (deletedDisk fid db disk).paths)) = true ∧
    (childDeleteOps fid db disk).all isChildOp = true ∧
    get_file_history fid (deletedDB fid db) = none := by
  refine ⟨by simp [delete_file, hm], ?_, ?_, ?_, ?_, ?_⟩
  · rw [versionsOf, List.filter_eq_nil_iff]
    intro v hv
    have := (List.mem_filter.mp hv).2
    simp only [deletedDB] at hv
    have h2 := (List.mem_filter.mp hv).2
    simp only [Bool.not_eq_true', decide_eq_false_iff_not] at h2
    simp [h2]
  · rw [List.filter_eq_nil_iff]
    intro l hl
    simp only [deletedDB] at hl
    have h2 := (List.mem_filter.mp hl).2
    simp only [Bool.not_eq_true', decide_eq_false_iff_not] at h2
    simp [h2]
  · rw [List.all_eq_true]
    intro p hp
    simp only [deletedDisk, Bool.not_eq_true', decide_eq_false_iff_not]
    intro hmem
    have h2 := (List.mem_filter.mp hmem).2
    simp only [Bool.not_eq_true', decide_eq_false_iff_not] at h2
    exact h2 hp
  · rw [List.all_eq_true]
    intro op hop
    rcases List.mem_append.mp hop with hop | hop
    · obtain ⟨ops, hops, hin⟩ := List.mem_flatten.mp hop
      obtain ⟨v, _, rfl⟩ := List.mem_map.mp hops
      rcases List.mem_append.mp hin with hin | hin
      · by_cases hpath : v.saved_path ∈ disk.paths
        · simp only [hpath, if_pos, List.mem_singleton] at hin
          subst hin
          rfl
        · simp [hpath] at hin
      · simp only [List.mem_singleton] at hin
        subst hin
        rfl
    · obtain ⟨l, _, rfl⟩ := List.mem_map.mp hop
      rfl
  · rw [get_file_history]
    have : (deletedDB fid db).files.find? (fun f => decide (f.id = fid)) = none := by
      rw [List.find?_eq_none]
      intro f hf
      simp only [deletedDB] at hf
      have h2 := (List.mem_filter.mp hf).2
      simpa using h2
    rw [this]

/-- C3 witness: deleting file 1 of `dbTwo` (two versions, one card
link, version 2's artifact absent from `diskOne`). -/
theorem delete_removes_children_then_meta_witness :
    (dbTwo.files.find? (fun f => decide (f.id = 1)) = some ⟨1, 7, "spec.pdf", 1, 0, 0⟩) ∧
    (delete_file 1 dbTwo diskOne =
      some (deletedDB 1 dbTwo, deletedDisk 1 dbTwo diskOne,
        childDeleteOps 1 dbTwo diskOne ++ [DelOp.delMeta 1]) ∧
    versionsOf 1 (deletedDB 1 dbTwo) = [] ∧
    (deletedDB 1 dbTwo).links.filter (fun l => decide (l.file_id = 1)) = [] ∧
    ((versionsOf 1 dbTwo).map FileVersion.saved_path).all
      (fun p => !decide (p ∈ (deletedDisk 1 dbTwo diskOne).paths)) = true ∧
    (childDeleteOps 1 dbTwo diskOne).all isChildOp = true ∧
    get_file_history 1 (deletedDB 1 dbTwo) = none) :=
  ⟨rfl, delete_removes_children_then_meta 1 dbTwo diskOne ⟨1, 7, "spec.pdf", 1, 0, 0⟩ rfl⟩

/-! ### Version histories of upload-only traces -/

theorem maxNat_perm {l l' : List Nat} (h : List.Perm l l') : maxNat l = maxNat l' := by
  induction h with
  | nil => rfl
  | cons x _ ih => simp [maxNat, List.foldr_cons] at ih ⊢; rw [ih]
  | swap x y l => simp [maxNat, List.foldr_cons, max_left_comm]
  | trans _ _ ih1 ih2 => exact ih1.trans ih2

theorem maxNat_descRange : ∀ n, maxNat (descRange n) = n := by
  intro n
  induction n with
  | zero => rfl
  | succ n ih =>
    show maxNat ((n + 1) :: descRange n) = n + 1
    simp only [maxNat, List.foldr_cons] at ih ⊢
    rw [ih]
    exact Nat.max_eq_left (Nat.le_succ n)

theorem mem_descRange : ∀ n k, k ∈ descRange n ↔ 1 ≤ k ∧ k ≤ n := by
  intro n
  induction n with
  | zero => intro k; simp [descRange]; omega
  | succ n ih =>
    intro k
    simp only [descRange, List.mem_cons, ih]
    omega

theorem descRange_sorted (n : Nat) : (descRange n).Pairwise (fun x y => y < x) := by
  induction n with
  | zero => exact List.Pairwise.nil
  | succ n ih =>
    rw [descRange, List.pairwise_cons]
    refine ⟨fun y hy => ?_, ih⟩
    have := (mem_descRange n y).mp hy
    omega

theorem descRange_nodup (n : Nat) : (descRange n).Nodup :=
  (descRange_sorted n).imp (fun h => (Nat.ne_of_lt h).symm)

theorem insertDesc_perm (v : FileVersion) :
    ∀ l : List FileVersion, List.Perm (insertDesc v l) (v :: l) := by
  intro l
  induction l with
  | nil => exact List.Perm.refl _
  | cons w ws ih =>
    rw [insertDesc]
    by_cases hw : w.version ≤ v.version
    · simp only [hw, if_pos]
      exact List.Perm.refl _
    · simp only [hw, if_neg, not_false_iff]
      exact (ih.cons w).trans (List.Perm.swap v w ws)

theorem sortDesc_perm (l : List FileVersion) : List.Perm (sortDesc l) l := by
  induction l with
  | nil => exact List.Perm.refl _
  | cons x xs ih =>
    show List.Perm (insertDesc x (sortDesc xs)) (x :: xs)
    exact (insertDesc_perm x _).trans (ih.cons x)

theorem insertDesc_sorted (v : FileVersion) :
    ∀ {l : List FileVersion}, l.Pairwise (fun a b => b.version ≤ a.version) →
      (insertDesc v l).Pairwise (fun a b => b.version ≤ a.version) := by
  intro l
  induction l with
  | nil => intro _; simp [insertDesc]
  | cons w ws ih =>
    intro h
    rcases List.pairwise_cons.mp h with ⟨hw', hws⟩
    rw [insertDesc]
    by_cases hw : w.version ≤ v.version
    · simp only [hw, if_pos, List.pairwise_cons]
      refine ⟨fun b hb => ?_, hw', hws⟩
      rcases List.mem_cons.mp hb with rfl | hb
      · exact hw
      · exact (hw' b hb).trans hw
    · simp only [hw, if_neg, not_false_iff, List.pairwise_cons]
      refine ⟨fun b hb => ?_, ih hws⟩
      rcases List.mem_cons.mp ((insertDesc_perm v ws).mem_iff.mp hb) with rfl | hb
      · exact Nat.le_of_not_le hw
      · exact hw' b hb

theorem sortDesc_sorted (l : List FileVersion) :
    (sortDesc l).Pairwise (fun a b => b.version ≤ a.version) := by
  induction l with
  | nil => exact List.Pairwise.nil
  | cons x xs ih =>
    show (insertDesc x (sortDesc xs)).Pairwise _
    exact insertDesc_sorted x ih

theorem versNums_uploadCore (pid : Nat) (fname : String) (size path uid time fid : Nat)
    {db : DB} (h : dbInv db = true) :
    versNums fid (uploadCore pid fname size path uid time db).1 =
      versNums fid db ++
        (if targetOf pid fname db = fid then [maxVersion fid db + 1] else []) := by
  unfold versNums
  rw [versionsOf_uploadCore, List.map_append]
  congr 1
  by_cases ht : targetOf pid fname db = fid
  · have := uploadCore_version_value pid fname size path uid time h
    rw [ht] at this
    simp [ht, this]
  · simp [ht]

theorem goodVers_uploadCore (pid : Nat) (fname : String) (size path uid time : Nat)
    {db : DB} (h : dbInv db = true) (hg : goodVers db) :
    goodVers (uploadCore pid fname size path uid time db).1 := by
  intro fid
  rw [versNums_uploadCore pid fname size path uid time fid h]
  by_cases ht : targetOf pid fname db = fid
  · have hp := hg fid
    have hmax : maxVersion fid db = (versNums fid db).length := by
      rw [maxVersion, maxNat_perm hp, maxNat_descRange]
    simp only [ht, if_pos, hmax, List.length_append, List.length_singleton]
    exact (List.perm_append_singleton _ _).trans (hp.cons _)
  · simp only [ht, if_neg, not_false_iff, List.append_nil]
    exact hg fid

theorem goodVers_empty : goodVers emptyDB := fun _ => List.Perm.nil

theorem goodDB_run :
    ∀ (tr : List UpItem) (db : DB), dbInv db = true → goodVers db →
      dbInv (runUploads db tr) = true ∧ goodVers (runUploads db tr) := by
  intro tr
  induction tr with
  | nil => exact fun db h hg => ⟨h, hg⟩
  | cons it tr ih =>
    intro db h hg
    exact ih _ (dbInv_uploadCore _ _ _ _ _ _ h)
      (goodVers_uploadCore _ _ _ _ _ _ h hg)

theorem run_count :
    ∀ (tr : List UpItem) (db : DB) (fid : Nat),
      (versNums fid (runUploads db tr)).length =
        (versNums fid db).length + storeCountFrom db fid tr := by
  intro tr
  induction tr with
  | nil => intro db fid; simp [runUploads, storeCountFrom]
  | cons it tr ih =>
    intro db fid
    show (versNums fid (runUploads (uploadCore it.pid it.fname it.size it.path it.uid it.time db).1 tr)).length = _
    rw [ih]
    have hstep : (versNums fid (uploadCore it.pid it.fname it.size it.path it.uid it.time db).1).length =
        (versNums fid db).length + (if targetOf it.pid it.fname db = fid then 1 else 0) := by
      unfold versNums
      rw [versionsOf_uploadCore]
      by_cases ht : targetOf it.pid it.fname db = fid <;> simp [ht]
    rw [hstep]
    show _ = (versNums fid db).length +
      ((if targetOf it.pid it.fname db = fid then 1 else 0) +
        storeCountFrom (uploadCore it.pid it.fname it.size it.path it.uid it.time db).1 fid tr)
    omega

/-- C2: for every file identity, after any sequence of successful
uploads from the empty database, `get_file_history` (when the file
exists) lists the versions strictly decreasing and gapless from 1, the
newest first: the version column is exactly `[n, ..., 1]` where `n` is
the number of successful store() calls ever made for that identity —
so in particular the latest version number equals that count. -/
theorem history_matches_store_count (tr : List UpItem) (fid : Nat) (l : List FileVersion)
    (h : get_file_history fid (runUploads emptyDB tr) = some l) :
    l.map FileVersion.version = descRange (storeCountFrom emptyDB fid tr) := by
  obtain ⟨hinv, hg⟩ := goodDB_run tr emptyDB rfl goodVers_empty
  unfold get_file_history at h
  cases hf : (runUploads emptyDB tr).files.find? (fun f => decide (f.id = fid)) with
  | none => rw [hf] at h; cases h
  | some m =>
    rw [hf] at h
    injection h with h
    subst h
    have hp := hg fid
    have hcnt : (versNums fid (runUploads emptyDB tr)).length =
        storeCountFrom emptyDB fid tr := by
      have := run_count tr emptyDB fid
      simpa [versNums, versionsOf, emptyDB] using this
    have hpermL : List.Perm
        ((sortDesc (versionsOf fid (runUploads emptyDB tr))).map FileVersion.version)
        (descRange (versNums fid (runUploads emptyDB tr)).length) :=
      ((sortDesc_perm _).map FileVersion.version).trans hp
    have hsorted1 : ((sortDesc (versionsOf fid (runUploads emptyDB tr))).map
        FileVersion.version).Pairwise (fun x y => y ≤ x) :=
      (List.pairwise_map).mpr (sortDesc_sorted _)
    have hnd : ((sortDesc (versionsOf fid (runUploads emptyDB tr))).map
        FileVersion.version).Nodup :=
      hpermL.nodup_iff.mpr (descRange_nodup _)
    have hstrict : ((sortDesc (versionsOf fid (runUploads emptyDB tr))).map
        FileVersion.version).Pairwise (fun x y => y < x) :=
      (hsorted1.and hnd).imp (fun hab => lt_of_le_of_ne hab.1 hab.2.symm)
    have := List.eq_of_perm_of_sorted hpermL hstrict (descRange_sorted _)
    rw [this, hcnt]

/-- C2 witness: "spec.pdf" uploaded twice to project 7 from the empty
database; the history of file 1 is `[v2, v1]` and its version column is
`descRange 2 = [2, 1]`, matching the two store calls. -/
theorem history_matches_store_count_witness :
    (get_file_history 1 (runUploads emptyDB trTwoUploads) = some verListTwo) ∧
    verListTwo.map FileVersion.version = descRange (storeCountFrom emptyDB 1 trTwoUploads) :=
  ⟨rfl, history_matches_store_count trTwoUploads 1 verListTwo rfl⟩

/-- C5: every store assigns version number `(max existing version for
the resolved file identity) + 1`, starting at 1 when no versions exist;
and uploading the same logical filename to the same project twice
(starting from a state with no file of that name) yields exactly one
`FileMetadata` row for that name and two `FileVersion` rows with
version numbers 1 then 2. -/
theorem upload_assigns_next_version (pid : Nat) (fname : String)
    (s1 p1 u1 t1 s2 p2 u2 t2 : Nat) (db dbb : DB)
    (hinv : dbInv db = true) (hinvb : dbInv dbb = true)
    (hnone : findFile pid fname dbb = none) :
    (uploadCore pid fname s1 p1 u1 t1 db).2.version =
      maxVersion (targetOf pid fname db) db + 1 ∧
    (((uploadCore pid fname s2 p2 u2 t2
          (uploadCore pid fname s1 p1 u1 t1 dbb).1).1).files.filter
        (fun f => decide (f.project_id = pid) && decide (f.filename = fname))).length = 1 ∧
    versNums dbb.nextFileId
      (uploadCore pid fname s2 p2 u2 t2 (uploadCore pid fname s1 p1 u1 t1 dbb).1).1 =
      [1, 2] := by
  have hmem : ∀ x ∈ dbb.files,
      ¬ ((decide (x.project_id = pid) && decide (x.filename = fname)) = true) :=
    List.find?_eq_none.mp hnone
  have hfresh : versionsOf dbb.nextFileId dbb = [] := versionsOf_fresh hinvb
  unfold versionsOf at hfresh
  have hstep1 : uploadCore pid fname s1 p1 u1 t1 dbb =
      ({ dbb with
          files := dbb.files ++ [(⟨dbb.nextFileId, pid, fname, u1, t1, t1⟩ : FileMetadata)],
          versions := dbb.versions ++
            [(⟨dbb.nextVersionId, dbb.nextFileId, 1, p1, s1, u1, t1⟩ : FileVersion)],
          nextFileId := dbb.nextFileId + 1,
          nextVersionId := dbb.nextVersionId + 1 },
        (⟨dbb.nextVersionId, dbb.nextFileId, 1, p1, s1, u1, t1⟩ : FileVersion)) := by
    unfold uploadCore
    rw [hnone]
  have hfind1 : findFile pid fname
      { dbb with
          files := dbb.files ++ [(⟨dbb.nextFileId, pid, fname, u1, t1, t1⟩ : FileMetadata)],
          versions := dbb.versions ++
            [(⟨dbb.nextVersionId, dbb.nextFileId, 1, p1, s1, u1, t1⟩ : FileVersion)],
          nextFileId := dbb.nextFileId + 1,
          nextVersionId := dbb.nextVersionId + 1 } =
      some (⟨dbb.nextFileId, pid, fname, u1, t1, t1⟩ : FileMetadata) := by
    unfold findFile at hnone ⊢
    show (dbb.files ++ [(⟨dbb.nextFileId, pid, fname, u1, t1, t1⟩ : FileMetadata)]).find?
        (fun f => decide (f.project_id = pid) && decide (f.filename = fname)) = _
    rw [List.find?_append, hnone]
    simp [List.find?]
  refine ⟨uploadCore_version_value pid fname s1 p1 u1 t1 hinv, ?_, ?_⟩
  · rw [hstep1]
    show ((uploadCore pid fname s2 p2 u2 t2 _).1.files.filter _).length = 1
    unfold uploadCore
    rw [hfind1]
    show (((dbb.files ++ [(⟨dbb.nextFileId, pid, fname, u1, t1, t1⟩ : FileMetadata)]).map
        (fun g => if g.id = dbb.nextFileId then { g with updated_at := t2 } else g)).filter
        (fun f => decide (f.project_id = pid) && decide (f.filename = fname))).length = 1
    rw [List.map_append]
    have hcong : dbb.files.map
        (fun g => if g.id = dbb.nextFileId then { g with updated_at := t2 } else g) =
        dbb.files := by
      have hgg : ∀ g ∈ dbb.files,
          (if g.id = dbb.nextFileId then { g with updated_at := t2 } else g) = id g := by
        intro g hg
        have hlt : g.id < dbb.nextFileId := by
          simp only [dbInv, Bool.and_eq_true, List.all_eq_true] at hinvb
          have := hinvb.1 g hg
          simpa using this
        simp [Nat.ne_of_lt hlt]
      rw [List.map_congr_left hgg, List.map_id]
    rw [hcong, List.filter_append, List.filter_eq_nil_iff.mpr hmem]
    simp
  · rw [hstep1]
    show versNums dbb.nextFileId (uploadCore pid fname s2 p2 u2 t2 _).1 = [1, 2]
    unfold uploadCore
    rw [hfind1]
    have hmax1 : maxVersion dbb.nextFileId
        { dbb with
            files := dbb.files ++ [(⟨dbb.nextFileId, pid, fname, u1, t1, t1⟩ : FileMetadata)],
            versions := dbb.versions ++
              [(⟨dbb.nextVersionId, dbb.nextFileId, 1, p1, s1, u1, t1⟩ : FileVersion)],
            nextFileId := dbb.nextFileId + 1,
            nextVersionId := dbb.nextVersionId + 1 } = 1 := by
      unfold maxVersion versNums versionsOf
      show maxNat (((dbb.versions ++
        [(⟨dbb.nextVersionId, dbb.nextFileId, 1, p1, s1, u1, t1⟩ : FileVersion)]).filter
          (fun v : FileVersion => decide (v.file_id = dbb.nextFileId))).map FileVersion.version) = 1
      rw [List.filter_append, hfresh]
      simp [maxNat]
    unfold versNums versionsOf
    show (((dbb.versions ++
        [(⟨dbb.nextVersionId, dbb.nextFileId, 1, p1, s1, u1, t1⟩ : FileVersion)] ++ [_]).filter
        (fun v : FileVersion => decide (v.file_id = dbb.nextFileId))).map FileVersion.version) = [1, 2]
    rw [List.filter_append, List.filter_append]
    rw [hfresh, hmax1]
    simp

/-- C5 witness: the general next-version rule applied to `dbOne`, and
the double-upload scenario of "spec.pdf" into project 7 from the empty
database. -/
theorem upload_assigns_next_version_witness :
    (dbInv dbOne = true ∧ dbInv emptyDB = true ∧ findFile 7 "spec.pdf" emptyDB = none) ∧
    ((uploadCore 7 "spec.pdf" 5000 10 1 0 dbOne).2.version =
        maxVersion (targetOf 7 "spec.pdf" dbOne) dbOne + 1 ∧
     (((uploadCore 7 "spec.pdf" 6200 11 1 1
           (uploadCore 7 "spec.pdf" 5000 10 1 0 emptyDB).1).1).files.filter
         (fun f => decide (f.project_id = 7) && decide (f.filename = "spec.pdf"))).length = 1 ∧
     versNums emptyDB.nextFileId
       (uploadCore 7 "spec.pdf" 6200 11 1 1
         (uploadCore 7 "spec.pdf" 5000 10 1 0 emptyDB).1).1 = [1, 2]) :=
  ⟨⟨rfl, rfl, rfl⟩,
    upload_assigns_next_version 7 "spec.pdf" 5000 10 1 0 6200 11 1 1 dbOne emptyDB
      rfl rfl rfl⟩

/-- C9 counterexample: `dbOne` holds "spec.pdf" (file id 1) at version
1.  Two uploads race: both read max version 1 from the same snapshot,
both compute version 2, and both inserts are accepted — the schema's
only constraint is the primary key on `id`, so the later conflicting
write does NOT fail and the file ends with duplicate version numbers
(`versNums = [1, 2, 2]`). -/
theorem race_duplicate_versions_counterexample :
    raceVersions 1 2 3 11 12 6200 6300 1 2 1 2 dbOne =
      some ⟨[⟨1, 7, "spec.pdf", 1, 0, 0⟩],
        [⟨1, 1, 1, 10, 5000, 1, 0⟩, ⟨2, 1, 2, 11, 6200, 1, 1⟩, ⟨3, 1, 2, 12, 6300, 2, 2⟩],
        [], 2, 2⟩ ∧
    versNums 1 ⟨[⟨1, 7, "spec.pdf", 1, 0, 0⟩],
        [⟨1, 1, 1, 10, 5000, 1, 0⟩, ⟨2, 1, 2, 11, 6200, 1, 1⟩, ⟨3, 1, 2, 12, 6300, 2, 2⟩],
        [], 2, 2⟩ = [1, 2, 2] := by
  exact ⟨rfl, rfl⟩

/-- C9 amended: the `file_versions` table declares no uniqueness
constraint on `(file_id, version)` (only the primary key on `id`), so
when two uploads race on the same file identity — both reading the
maximum version before either inserts — both inserts are accepted
whenever their row ids are fresh, and the file identity ends with two
rows carrying the same version number `maxVersion + 1`; the later write
does not fail. -/
theorem race_duplicate_versions (fid id1 id2 p1 p2 s1 s2 u1 u2 t1 t2 : Nat) (db : DB)
    (h1 : db.versions.all (fun w => !decide (w.id = id1)) = true)
    (h2 : db.versions.all (fun w => !decide (w.id = id2)) = true)
    (h12 : id1 ≠ id2) :
    raceVersions fid id1 id2 p1 p2 s1 s2 u1 u2 t1 t2 db =
      some { db with versions := db.versions ++
        [⟨id1, fid, maxVersion fid db + 1, p1, s1, u1, t1⟩,
         ⟨id2, fid, maxVersion fid db + 1, p2, s2, u2, t2⟩] } ∧
    versNums fid { db with versions := db.versions ++
        [⟨id1, fid, maxVersion fid db + 1, p1, s1, u1, t1⟩,
         ⟨id2, fid, maxVersion fid db + 1, p2, s2, u2, t2⟩] } =
      versNums fid db ++ [maxVersion fid db + 1, maxVersion fid db + 1] := by
  constructor
  · have hall2 :
        ((db.versions ++ [(⟨id1, fid, maxVersion fid db + 1, p1, s1, u1, t1⟩ : FileVersion)]).all
          (fun w => !decide (w.id = id2))) = true := by
      have h2' : ∀ x ∈ db.versions, ¬ x.id = id2 := by simpa using h2
      simp only [List.all_append, List.all_eq_true, Bool.and_eq_true]
      refine ⟨fun x hx => by simp [h2' x hx], by simp [h12]⟩
    simp [raceVersions, insertVersionChecked, h1, hall2]
  · simp [versNums, versionsOf, List.filter_append]

/-- C9 amended witness: the race on `dbOne` with fresh row ids 2 and 3. -/
theorem race_duplicate_versions_witness :
    (dbOne.versions.all (fun w => !decide (w.id = 2)) = true ∧
     dbOne.versions.all (fun w => !decide (w.id = 3)) = true ∧
     (2 : Nat) ≠ 3) ∧
    (raceVersions 1 2 3 11 12 6200 6300 1 2 1 2 dbOne =
      some { dbOne with versions := dbOne.versions ++
        [⟨2, 1, maxVersion 1 dbOne + 1, 11, 6200, 1, 1⟩,
         ⟨3, 1, maxVersion 1 dbOne + 1, 12, 6300, 2, 2⟩] } ∧
    versNums 1 { dbOne with versions := dbOne.versions ++
        [⟨2, 1, maxVersion 1 dbOne + 1, 11, 6200, 1, 1⟩,
         ⟨3, 1, maxVersion 1 dbOne + 1, 12, 6300, 2, 2⟩] } =
      versNums 1 dbOne ++ [maxVersion 1 dbOne + 1, maxVersion 1 dbOne + 1]) :=
  ⟨⟨by decide, by decide, by decide⟩,
    race_duplicate_versions 1 2 3 11 12 6200 6300 1 2 1 2 dbOne
      (by decide) (by decide) (by decide)⟩

end Domo
